import Mathlib

/-!
# react-next-tasks: interview task catalogue

A shallow embedding of the parts of the repository that the verified
properties are about:

* `interview-task/event-loop/event-loop.js`: the `Scheduler` class (Task 20) and
  the chunked `process` function (Task 17);
* `interview-task/classes-proto/classes-proto.js`: `Bag` and `SafeBag` (Tasks 17
  and 18), over a heap of objects and arrays;
* `interview-task/async/index.js`: `processSequential` and `processItems` (Tasks 21
  and 38), as state machines driven by the timers they set;
* `interview-task/algorithms/algorithms.js`: the task functions.  Every function
  of that file has the body `// implement`, that is, an empty body: a call
  evaluates its arguments, runs nothing and completes with `undefined`.
-/

/-! ## JavaScript call results -/

/-- How a call ends: it returns a value, it runs off the end of the body (the call
evaluates to `undefined`), or it throws. -/
inductive Completion (α : Type) where
  | returned (v : α)
  | undefined
  | thrown (error : String)
  deriving DecidableEq, Repr

namespace EventLoop

/-! ## `Scheduler` (event-loop.js, Task 20) -/

/-- What the call `task()` does for a queued task: it returns a promise (which has a
`finally` method), it throws, or it returns a value that has no `finally` method. -/
inductive TaskBehaviour where
  | returnsPromise
  | throws
  | returnsNonThenable
  deriving DecidableEq, Repr

/-- A task function handed to `run`. -/
structure Task where
  id : Nat
  behaviour : TaskBehaviour
  deriving DecidableEq, Repr

/-- The fields of a `Scheduler` object. -/
structure Scheduler where
  limit : Int
  running : Int
  queue : List Task
  deriving DecidableEq, Repr

/-- A scheduler together with the promises of its started tasks on which the
`finally` callback of `next` is registered and has not run yet, and the calls
`task()` that `next` has made so far, in the order made. -/
structure State where
  sched : Scheduler
  pending : List Task
  calls : List Task
  deriving DecidableEq, Repr

/-- How a promise settles. -/
inductive Settlement where
  | fulfilled
  | rejected
  deriving DecidableEq, Repr

/-- The body of `constructor(limit)`. -/
def Scheduler.new (limit : Int) : Scheduler :=
  { limit := limit, running := 0, queue := [] }

/-- A freshly constructed scheduler: nothing started yet. -/
def State.new (limit : Int) : State :=
  { sched := Scheduler.new limit, pending := [], calls := [] }

/-- The body of `next()`.  The second component tells whether the call returned
normally (`true`) or an exception left it (`false`). -/
def next (st : State) : State × Bool :=
  -- if (this.running >= this.limit || !this.queue.length) return;
  if st.sched.running ≥ st.sched.limit ∨ st.sched.queue.length = 0 then (st, true)
  else
    match st.sched.queue with
    | [] => (st, true)
    | task :: rest =>
      -- this.running++; const task = this.queue.shift();
      let s1 : Scheduler := { st.sched with running := st.sched.running + 1, queue := rest }
      -- task().finally(() => { ... }): the call task() is made, then what it gave decides
      let called : List Task := st.calls ++ [task]
      match task.behaviour with
      | TaskBehaviour.returnsPromise =>
        ({ sched := s1, pending := st.pending ++ [task], calls := called }, true)
      | TaskBehaviour.throws =>
        ({ sched := s1, pending := st.pending, calls := called }, false)
      | TaskBehaviour.returnsNonThenable =>
        ({ sched := s1, pending := st.pending, calls := called }, false)

/-- The body of `run(task)`: `this.queue.push(task); this.next();`. -/
def run (st : State) (task : Task) : State × Bool :=
  next { st with sched := { st.sched with queue := st.sched.queue ++ [task] } }

/-- The `finally` callback of the `i`-th pending promise runs, once that promise has
settled either way: `this.running--; this.next();`.  A promise that is not pending
(never started, or already settled) runs no callback. -/
def settle (st : State) (i : Nat) (_how : Settlement) : State × Bool :=
  if i < st.pending.length then
    next { sched := { st.sched with running := st.sched.running - 1 },
           pending := st.pending.eraseIdx i,
           calls := st.calls }
  else (st, true)

/-- What can happen to a scheduler from outside. -/
inductive Event where
  | run (task : Task)
  | settle (i : Nat) (how : Settlement)
  deriving DecidableEq, Repr

/-- The state after one event. -/
def step (st : State) : Event → State
  | Event.run task => (run st task).1
  | Event.settle i how => (settle st i how).1

/-- The state after a sequence of events, applied to `new Scheduler(limit)`. -/
def exec (limit : Int) (events : List Event) : State :=
  events.foldl step (State.new limit)

/-- The invariant of the scheduler: the started and unsettled tasks are counted by
`running`, and `running` does not pass `limit`. -/
def Inv (st : State) : Prop :=
  (st.pending.length : Int) ≤ st.sched.running ∧ st.sched.running ≤ st.sched.limit

end EventLoop

namespace Algorithms

/-! ## Task functions of algorithms.js

Each function below is the source function of the same name.  The source body is
the single comment `// implement`: no statement runs and no `return` is reached, so
the call completes with `undefined` whatever the arguments are. -/

/-- Modelled from the spec: the list node type, which algorithms.js uses but does not
declare.  A list reference is `null` or a node holding a value and a successor. -/
inductive ListNode where
  | null
  | node (val : Int) (next : ListNode)
  deriving DecidableEq, Repr

/-- The values of a list read from its head. -/
def ListNode.values : ListNode → List Int
  | ListNode.null => []
  | ListNode.node v next => v :: next.values

/-- The list holding the given values in order. -/
def ListNode.ofValues : List Int → ListNode
  | [] => ListNode.null
  | v :: vs => ListNode.node v (ListNode.ofValues vs)

/-- Modelled from the spec: the tree node type, which algorithms.js uses but does not
declare.  A tree reference is `null` or a node with a value and two children. -/
inductive TreeNode where
  | null
  | node (val : Int) (left : TreeNode) (right : TreeNode)
  deriving DecidableEq, Repr

/-- Modelled from the spec: the graph type, which algorithms.js uses but does not
declare: a mapping from each vertex to its list of (neighbour, weight) pairs. -/
abbrev Graph := List (String × List (String × Int))

/-- A value of the `min` and `max` parameters of `isValidBST`: a number, or one of the
defaults `-Infinity` and `Infinity`. -/
inductive Bound where
  | negInfinity
  | finite (n : Int)
  | infinity
  deriving DecidableEq, Repr

/-- Task 1, `function twoSum(nums, target) { /* implement */ }`. -/
def twoSum (_nums : List Int) (_target : Int) : Completion (Nat × Nat) :=
  Completion.undefined

/-- Task 2, `function removeDuplicates(nums) { /* implement */ }`.  The first component
is the array `nums` after the call: the empty body leaves it as it was. -/
def removeDuplicates (nums : List Int) : List Int × Completion Nat :=
  (nums, Completion.undefined)

/-- Task 4, `function maxSubArray(nums) { /* implement */ }`. -/
def maxSubArray (_nums : List Int) : Completion Int :=
  Completion.undefined

/-- Task 11, `function reverseList(head) { /* implement */ }`. -/
def reverseList (_head : ListNode) : Completion ListNode :=
  Completion.undefined

/-- Task 13, `function mergeTwoLists(l1, l2) { /* implement */ }`. -/
def mergeTwoLists (_l1 : ListNode) (_l2 : ListNode) : Completion ListNode :=
  Completion.undefined

/-- Task 29, `function isValidBST(root, min = -Infinity, max = Infinity) { /* implement */ }`,
with all three arguments given. -/
def isValidBST (_root : TreeNode) (_min : Bound) (_max : Bound) : Completion Bool :=
  Completion.undefined

/-- The call `isValidBST(root)`: `min` and `max` take their default values. -/
def isValidBSTRoot (root : TreeNode) : Completion Bool :=
  isValidBST root Bound.negInfinity Bound.infinity

/-- Task 38, `function topoSort(graph) { /* implement */ }`. -/
def topoSort (_graph : Graph) : Completion (List String) :=
  Completion.undefined

/-- Task 39, `function dijkstra(graph, start) { /* implement */ }`.  A result would map
each vertex to its distance from `start`. -/
def dijkstra (_graph : Graph) (_start : String) : Completion (List (String × Int)) :=
  Completion.undefined

/-- Task 40, `function bellmanFord(graph, start) { /* implement */ }`. -/
def bellmanFord (_graph : Graph) (_start : String) : Completion (List (String × Int)) :=
  Completion.undefined

/-! ### Inputs of the documented examples -/

/-- The tree `[5,1,4,null,null,3,6]` in level order. -/
def tree514 : TreeNode :=
  TreeNode.node 5
    (TreeNode.node 1 TreeNode.null TreeNode.null)
    (TreeNode.node 4
      (TreeNode.node 3 TreeNode.null TreeNode.null)
      (TreeNode.node 6 TreeNode.null TreeNode.null))

/-- The tree `[2,1,3]`, a binary search tree. -/
def tree213 : TreeNode :=
  TreeNode.node 2
    (TreeNode.node 1 TreeNode.null TreeNode.null)
    (TreeNode.node 3 TreeNode.null TreeNode.null)

/-- The directed acyclic graph with the single edge A→B. -/
def graphAB : Graph := [("A", [("B", 1)]), ("B", [])]

/-- The graph with edges A→B, B→C, C→A and the isolated vertex D. -/
def graphCycle : Graph :=
  [("A", [("B", 1)]), ("B", [("C", 1)]), ("C", [("A", 1)]), ("D", [])]

/-- Every value of the tree lies strictly between the bounds its ancestors induce. -/
def withinBounds : TreeNode → Bound → Bound → Bool
  | TreeNode.null, _, _ => true
  | TreeNode.node v l r, lo, hi =>
    (match lo with
      | Bound.negInfinity => true
      | Bound.finite m => decide (m < v)
      | Bound.infinity => false) &&
    (match hi with
      | Bound.negInfinity => false
      | Bound.finite m => decide (v < m)
      | Bound.infinity => true) &&
    withinBounds l lo (Bound.finite v) && withinBounds r (Bound.finite v) hi

/-- Whether the graph has an edge `u → v`. -/
def hasEdge (g : Graph) (u v : String) : Bool :=
  g.any fun entry => entry.1 == u && entry.2.any fun e => e.1 == v

/-- Whether each vertex of the path has an edge to the one after it. -/
def edgesAlong (g : Graph) : List String → Bool
  | [] => true
  | [_] => true
  | u :: v :: rest => hasEdge g u v && edgesAlong g (v :: rest)

/-- Whether the path is a cycle of the graph: it is not empty, each vertex has an edge
to the one after it, and the last has an edge back to the first. -/
def isCycle (g : Graph) (path : List String) : Bool :=
  match path.head?, path.getLast? with
  | some first, some last => edgesAlong g path && hasEdge g last first
  | _, _ => false

/-- Whether every edge weight of the graph is at least 0. -/
def nonNegative (g : Graph) : Bool :=
  g.all fun entry => entry.2.all fun e => decide (0 ≤ e.2)

/-- The distance that the result of a shortest-path call gives for a vertex, if it
gives one. -/
def distanceOf (result : Completion (List (String × Int))) (v : String) : Option Int :=
  match result with
  | Completion.returned table => table.lookup v
  | Completion.undefined => none
  | Completion.thrown _ => none

end Algorithms

namespace Algorithms

/-- Task 26, `function merge(intervals) { /* implement */ }`.  An interval is a pair
`[start, end]`. -/
def merge (_intervals : List (Int × Int)) : Completion (List (Int × Int)) :=
  Completion.undefined

/-- Task 43, `function coinChange(coins, amount) { /* implement */ }`. -/
def coinChange (_coins : List Int) (_amount : Int) : Completion Int :=
  Completion.undefined

/-- Bonus 1, `class MinHeap`.  The constructor body is empty, so an instance has no
field: there is no backing array. -/
structure MinHeap where
  deriving DecidableEq, Repr

/-- The body of `constructor() { /* implement */ }`. -/
def MinHeap.new : MinHeap := {}

/-- The method `insert(val) { /* implement */ }`: the heap after the call and how the
call ends. -/
def MinHeap.insert (h : MinHeap) (_val : Int) : MinHeap × Completion Unit :=
  (h, Completion.undefined)

/-- The method `extractMin() { /* implement */ }`: the heap after the call and how the
call ends. -/
def MinHeap.extractMin (h : MinHeap) : MinHeap × Completion Int :=
  (h, Completion.undefined)

/-- The keys in the backing array of a heap.  The object has no property at all, so it
holds no key. -/
def MinHeap.keys (_h : MinHeap) : List Int := []

/-- A call on a heap: `insert(val)` or `extractMin()`. -/
inductive HeapOp where
  | insert (val : Int)
  | extractMin
  deriving DecidableEq, Repr

/-- The heap after one call. -/
def MinHeap.apply (h : MinHeap) : HeapOp → MinHeap
  | HeapOp.insert val => (h.insert val).1
  | HeapOp.extractMin => h.extractMin.1

/-- The heap after a sequence of calls on `new MinHeap()`. -/
def MinHeap.run (ops : List HeapOp) : MinHeap :=
  ops.foldl MinHeap.apply MinHeap.new

/-- Whether every parent's key in the array is at most the keys of both its children:
the children of position `i` are at positions `2 * i + 1` and `2 * i + 2`. -/
def heapOrdered (keys : List Int) : Bool :=
  (List.range keys.length).all fun i =>
    [2 * i + 1, 2 * i + 2].all fun child =>
      match keys[i]?, keys[child]? with
      | some parent, some key => decide (parent ≤ key)
      | _, _ => true

end Algorithms

namespace EventLoop

/-! ## `Scheduler`: which task a call starts -/

/-- The state after `this.queue.push(task)`, the first statement of `run`. -/
def enqueue (st : State) (task : Task) : State :=
  { st with sched := { st.sched with queue := st.sched.queue ++ [task] } }

/-- The state after `this.running--`, the first statement of the `finally` callback of
the `i`-th pending promise, which is then no longer pending. -/
def release (st : State) (i : Nat) : State :=
  { sched := { st.sched with running := st.sched.running - 1 },
    pending := st.pending.eraseIdx i,
    calls := st.calls }

/-- The task that a call of `next()` invokes: the head of the queue when the guard
`this.running >= this.limit || !this.queue.length` does not return early. -/
def invoked (st : State) : Option Task :=
  if st.sched.running ≥ st.sched.limit ∨ st.sched.queue.length = 0 then none
  else st.sched.queue.head?

/-- The tasks passed to `run` by a sequence of events, in call order. -/
def submitted : List Event → List Task
  | [] => []
  | Event.run task :: es => task :: submitted es
  | Event.settle _ _ :: es => submitted es

/-- The slots counted by `running` that belong to no pending promise. -/
def leaked (st : State) : Int :=
  st.sched.running - (st.pending.length : Int)

/-! ## Chunked processing (event-loop.js, Task 17) -/

/-- An element of the array `items`: a number, or a value such as a Symbol, for which
`x * x` throws a TypeError. -/
inductive Element where
  | number (n : Int)
  | symbol
  deriving DecidableEq, Repr

/-- Whether the callback `(x) => x * x` throws on the element. -/
def squareThrows : Element → Bool
  | Element.number _ => false
  | Element.symbol => true

/-- The array `items` and the timer queue while `process(items)` is at work, with a
record of what the runs of `chunk` did: how many runs, the parts they took, and
whether an exception left one of them. -/
structure Loop where
  items : List Element
  timers : Nat
  runs : Nat
  parts : List (List Element)
  threw : Bool
  deriving DecidableEq, Repr

/-- One run of `chunk()`: `items.splice(0, 100)` takes the first 100 elements out of
`items`; the `forEach` computes squares and drops them, and when `x * x` throws on an
element of the part the exception leaves `chunk` there; otherwise `setTimeout(chunk)`
puts one more timer in the queue when `items.length` is not 0. -/
def chunk (s : Loop) : Loop :=
  let part := s.items.take 100
  let rest := s.items.drop 100
  if part.any squareThrows then
    { items := rest,
      timers := s.timers,
      runs := s.runs + 1,
      parts := s.parts ++ [part],
      threw := true }
  else
    { items := rest,
      timers := if rest.length ≠ 0 then s.timers + 1 else s.timers,
      runs := s.runs + 1,
      parts := s.parts ++ [part],
      threw := s.threw }

/-- The body of `process(items)`: the first run of `chunk`, made synchronously. -/
def process (items : List Element) : Loop :=
  chunk { items := items, timers := 0, runs := 0, parts := [], threw := false }

/-- One turn of the event loop: the oldest timer, if there is one, fires and runs
`chunk`. -/
def turn (s : Loop) : Loop :=
  if s.timers = 0 then s else chunk { s with timers := s.timers - 1 }

/-- The state after the given number of turns of the event loop. -/
def turns : Nat → Loop → Loop
  | 0, s => s
  | n + 1, s => turns n (turn s)

/-- An array of 151 elements whose first element is a Symbol and whose other elements
are the number 1. -/
def symbolThenNumbers : List Element :=
  Element.symbol :: List.replicate 150 (Element.number 1)

/-- The number `max(1, ceil(n / 100))`. -/
def chunkCount (n : Nat) : Nat :=
  max 1 ((n + 99) / 100)

end EventLoop

namespace ClassesProto

/-! ## `Bag` and `SafeBag` (classes-proto.js, Tasks 17 and 18) -/

/-- An object: its own properties, each holding the address of an array, and its
prototype, the address of another object. -/
structure JsObject where
  props : List (String × Nat)
  proto : Option Nat
  deriving DecidableEq, Repr

/-- The objects and the arrays allocated so far, each known by its address, the
position in the list. -/
structure Heap where
  objects : List JsObject
  arrays : List (List String)
  deriving DecidableEq, Repr

/-- The literal `[]`: a new empty array, and its address. -/
def Heap.allocArray (h : Heap) : Heap × Nat :=
  ({ h with arrays := h.arrays ++ [[]] }, h.arrays.length)

/-- A new object with no own property and the given prototype, and its address. -/
def Heap.allocObject (h : Heap) (proto : Option Nat) : Heap × Nat :=
  ({ h with objects := h.objects ++ [JsObject.mk [] proto] }, h.objects.length)

/-- The assignment `obj.name = array`: an own property of `obj` is written. -/
def Heap.setProp (h : Heap) (obj : Nat) (name : String) (array : Nat) : Heap :=
  match h.objects[obj]? with
  | none => h
  | some o =>
    let written : JsObject :=
      { o with props := (name, array) :: o.props.filter (fun p => p.1 ≠ name) }
    { h with objects := h.objects.set obj written }

/-- Property lookup along the prototype chain, at most `depth` objects deep: the own
property if there is one, else the property of the prototype. -/
def Heap.lookup : Nat → Heap → Nat → String → Option Nat
  | 0, _, _, _ => none
  | depth + 1, h, obj, name =>
    match h.objects[obj]? with
    | none => none
    | some o =>
      match o.props.lookup name with
      | some array => some array
      | none =>
        match o.proto with
        | none => none
        | some parent => Heap.lookup depth h parent name

/-- The expression `obj.name`. -/
def Heap.getProp (h : Heap) (obj : Nat) (name : String) : Option Nat :=
  Heap.lookup h.objects.length h obj name

/-- The contents of the array `obj.items`. -/
def Heap.items (h : Heap) (obj : Nat) : Option (List String) :=
  match h.getProp obj "items" with
  | none => none
  | some array => h.arrays[array]?

/-- The call `obj.items.push(value)`; `none` when `obj.items` is not an array. -/
def Heap.pushItems (h : Heap) (obj : Nat) (value : String) : Option Heap :=
  match h.getProp obj "items" with
  | none => none
  | some array =>
    match h.arrays[array]? with
    | none => none
    | some contents => some { h with arrays := h.arrays.set array (contents ++ [value]) }

/-- The declaration `function Bag() {}` followed by `Bag.prototype.items = [];`: the
prototype object of `Bag` is created and given the property `items`.  The result is
the heap and the address of `Bag.prototype`. -/
def declareBag (h : Heap) : Heap × Nat :=
  let (h1, bagPrototype) := h.allocObject none
  let (h2, array) := h1.allocArray
  (h2.setProp bagPrototype "items" array, bagPrototype)

/-- The expression `new Bag()`: a new object whose prototype is `Bag.prototype`; the
constructor body is empty. -/
def newBag (h : Heap) (bagPrototype : Nat) : Heap × Nat :=
  h.allocObject (some bagPrototype)

/-- The declaration `function SafeBag() { this.items = []; }`: the prototype object of
`SafeBag` is created. -/
def declareSafeBag (h : Heap) : Heap × Nat :=
  h.allocObject none

/-- The expression `new SafeBag()`: a new object whose prototype is
`SafeBag.prototype`, on which the constructor runs `this.items = []`. -/
def newSafeBag (h : Heap) (safeBagPrototype : Nat) : Heap × Nat :=
  let (h1, self) := h.allocObject (some safeBagPrototype)
  let (h2, array) := h1.allocArray
  (h2.setProp self "items" array, self)

/-- A step of a program that uses `SafeBag`: `new SafeBag()`, or
`s.items.push(value)` for the `k`-th instance `s` created so far. -/
inductive BagOp where
  | create
  | push (k : Nat) (value : String)
  deriving DecidableEq, Repr

/-- One step of such a program, on the heap and the instances created so far. -/
def applyOp (p : Nat) (st : Heap × List Nat) : BagOp → Option (Heap × List Nat)
  | BagOp.create => some ((newSafeBag st.1 p).1, st.2 ++ [(newSafeBag st.1 p).2])
  | BagOp.push k value =>
    match st.2[k]? with
    | none => none
    | some s =>
      match st.1.pushItems s value with
      | none => none
      | some h1 => some (h1, st.2)

/-- A sequence of steps; `none` when a push names an instance that does not exist. -/
def runOps (p : Nat) : Heap × List Nat → List BagOp → Option (Heap × List Nat)
  | st, [] => some st
  | st, op :: ops =>
    match applyOp p st op with
    | none => none
    | some st1 => runOps p st1 ops

/-- What each instance should hold when no storage is shared: a new instance holds
nothing, and a push to the `k`-th instance adds the value to the `k`-th list only. -/
def expectedItems : List (List String) → List BagOp → Option (List (List String))
  | contents, [] => some contents
  | contents, BagOp.create :: ops => expectedItems (contents ++ [[]]) ops
  | contents, BagOp.push k value :: ops =>
    if k < contents.length then
      expectedItems (contents.set k (contents.getD k [] ++ [value])) ops
    else none

/-- The heap made of the objects `O` and arrays `A` followed by one `SafeBag`
instance and one array for each list of `contents`. -/
def bagHeap (O : List JsObject) (A : List (List String)) (p : Nat)
    (contents : List (List String)) : Heap :=
  { objects := O ++ (List.range contents.length).map
      (fun k => JsObject.mk [("items", A.length + k)] (some p)),
    arrays := A ++ contents }

/-- The addresses of the instances of `bagHeap`. -/
def bagInstances (O : List JsObject) (contents : List (List String)) : List Nat :=
  (List.range contents.length).map (fun k => O.length + k)

/-- Lines 212 to 220 of classes-proto.js, run on an empty heap: the contents of
`bag1.items` and of `bag2.items` at the `console.log`. -/
def bagScript : Option (List String × List String) :=
  let (h1, bagPrototype) := declareBag { objects := [], arrays := [] }
  let (h2, bag1) := newBag h1 bagPrototype
  let (h3, bag2) := newBag h2 bagPrototype
  match h3.pushItems bag1 "apple" with
  | none => none
  | some h4 =>
    match h4.items bag1, h4.items bag2 with
    | some items1, some items2 => some (items1, items2)
    | _, _ => none

end ClassesProto

namespace Async

/-! ## Sequential and parallel item processing (async/index.js, Tasks 21 and 38) -/

/-- A timer set by `setTimeout(callback, 100)` whose callback resolves a promise: the
value the promise is resolved with when the timer fires. -/
structure Timer where
  resolvesWith : Int
  deriving DecidableEq, Repr

/-- The function `process = (item) => new Promise(r => setTimeout(() => r(item * 2), 100))`:
the call sets one timer, which resolves the returned promise with `item * 2`. -/
def process (item : Int) : Timer :=
  { resolvesWith := item * 2 }

/-- A call of `processSequential` in progress: the array `results`, the items the
`for` loop has not reached yet, the timer of the promise being awaited, and the
value the promise of the call is resolved with once `return results` has run. -/
structure SeqState where
  results : List Int
  remaining : List Int
  awaiting : Option Timer
  returned : Option (List Int)
  deriving DecidableEq, Repr

/-- The `for` loop of `processSequential` from the top of an iteration up to the next
`await process(item)`, or up to `return results` when no item is left. -/
def SeqState.loop (results remaining : List Int) : SeqState :=
  match remaining with
  | [] => { results := results, remaining := [], awaiting := none, returned := some results }
  | item :: rest =>
    { results := results, remaining := rest, awaiting := some (process item), returned := none }

/-- The call `processSequential(items)` up to its first `await`: `const results = []`
and the start of the loop. -/
def processSequential (items : List Int) : SeqState :=
  SeqState.loop [] items

/-- One turn of the event loop for `processSequential`: the awaited timer fires, the
`await` gives its value, `results.push(result)` runs and the loop goes on. -/
def SeqState.turn (s : SeqState) : SeqState :=
  match s.awaiting with
  | none => s
  | some timer => SeqState.loop (s.results ++ [timer.resolvesWith]) s.remaining

/-- The state after the given number of turns. -/
def SeqState.turns : Nat → SeqState → SeqState
  | 0, s => s
  | n + 1, s => SeqState.turns n s.turn

/-- A call of `processItems` in progress: the waiting timers in the order they were
set, each with the index of its promise in the array given to `Promise.all`; the
values `Promise.all` has collected, by index; the number of promises it still waits
for; and the value the promise of the call is resolved with. -/
structure ParState where
  timers : List (Nat × Timer)
  values : List (Option Int)
  waiting : Nat
  returned : Option (List Int)
  deriving DecidableEq, Repr

/-- The call `processItems(items)`: `items.map` creates one promise and one timer for
each item, in order, and `Promise.all` waits for all of them; for an empty array it
resolves with `[]`. -/
def processItems (items : List Int) : ParState :=
  { timers := (items.map fun item => Timer.mk (item * 2)).enum,
    values := List.replicate items.length none,
    waiting := items.length,
    returned := if items.length = 0 then some [] else none }

/-- One turn of the event loop for `processItems`: the oldest timer fires and resolves
its promise; `Promise.all` stores the value at the index of that promise and, when it
was the last one it waited for, resolves with the values in index order. -/
def ParState.turn (s : ParState) : ParState :=
  match s.timers with
  | [] => s
  | (index, timer) :: rest =>
    let values := s.values.set index (some timer.resolvesWith)
    { timers := rest,
      values := values,
      waiting := s.waiting - 1,
      returned := if s.waiting - 1 = 0 then some (values.filterMap id) else none }

/-- The state after the given number of turns. -/
def ParState.turns : Nat → ParState → ParState
  | 0, s => s
  | n + 1, s => ParState.turns n s.turn

/-- The list `[2 * x for x in items]`. -/
def doubled (items : List Int) : List Int :=
  items.map fun x => 2 * x

end Async

/-! ## Theorems -/

namespace EventLoop

theorem next_limit (st : State) : (next st).1.sched.limit = st.sched.limit := by
  unfold next
  split
  · rfl
  · split
    · rfl
    · split <;> rfl

theorem next_inv (st : State) (h : Inv st) : Inv (next st).1 := by
  unfold next
  split
  · exact h
  · rename_i hc
    have hlt : st.sched.running < st.sched.limit := by
      by_contra hn
      exact hc (Or.inl (not_lt.mp hn))
    split
    · exact h
    · obtain ⟨h1, h2⟩ := h
      split <;> simp only [Inv, List.length_append, List.length_singleton] <;>
        constructor <;> push_cast <;> omega

theorem new_inv (limit : Int) (h : 0 ≤ limit) : Inv (State.new limit) := by
  simp [Inv, State.new, Scheduler.new, h]

theorem step_inv (st : State) (e : Event) (h : Inv st) : Inv (step st e) := by
  cases e with
  | run task =>
    simp only [step, run]
    apply next_inv
    exact h
  | settle i how =>
    simp only [step, settle]
    split
    · rename_i hi
      apply next_inv
      obtain ⟨h1, h2⟩ := h
      have hpos : 0 < st.pending.length := by omega
      refine ⟨?_, ?_⟩
      · simp only [List.length_eraseIdx, hi, if_true]
        have : ((st.pending.length - 1 : Nat) : Int) = (st.pending.length : Int) - 1 := by omega
        rw [this]
        omega
      · show st.sched.running - 1 ≤ st.sched.limit
        omega
    · exact h

theorem exec_inv (limit : Int) (h : 0 ≤ limit) (events : List Event) :
    Inv (exec limit events) := by
  unfold exec
  induction events using List.reverseRecOn with
  | nil => exact new_inv limit h
  | append_singleton es e ih =>
    rw [List.foldl_append]
    exact step_inv _ e ih

theorem step_limit (st : State) (e : Event) : (step st e).sched.limit = st.sched.limit := by
  cases e with
  | run task => simp only [step, run, next_limit]
  | settle i how =>
    simp only [step, settle]
    split
    · simp only [next_limit]
    · rfl

theorem exec_limit (limit : Int) (events : List Event) :
    (exec limit events).sched.limit = limit := by
  unfold exec
  induction events using List.reverseRecOn with
  | nil => rfl
  | append_singleton es e ih =>
    rw [List.foldl_append]
    simp only [List.foldl_cons, List.foldl_nil, step_limit]
    exact ih

/-- C1: for every limit at least 0 and every finite sequence of `run(task)` calls
and task settlements applied to `new Scheduler(limit)`, the state reached satisfies
`0 <= running <= limit`, and the number of started, unsettled tasks is at most
`running`: at most `limit` tasks are in flight. -/
theorem scheduler_running_bounded (limit : Int) (h : 0 ≤ limit) (events : List Event) :
    0 ≤ (exec limit events).sched.running ∧
    (exec limit events).sched.running ≤ limit ∧
    ((exec limit events).pending.length : Int) ≤ limit := by
  have hi := exec_inv limit h events
  have hl := exec_limit limit events
  obtain ⟨h1, h2⟩ := hi
  rw [hl] at h2
  have : (0 : Int) ≤ ((exec limit events).pending.length : Int) := Int.natCast_nonneg _
  omega

end EventLoop

namespace EventLoop

/-- Witness of C1 at limit 2: three tasks are run, the third waits in the queue until
the first one settles; two tasks are in flight at the end. -/
theorem scheduler_running_bounded_witness :
    (0 : Int) ≤ 2 ∧
    (exec 2 [Event.run ⟨1, TaskBehaviour.returnsPromise⟩,
             Event.run ⟨2, TaskBehaviour.returnsPromise⟩,
             Event.run ⟨3, TaskBehaviour.returnsPromise⟩,
             Event.settle 0 Settlement.rejected]).sched.running = 2 ∧
    (0 ≤ (exec 2 [Event.run ⟨1, TaskBehaviour.returnsPromise⟩,
             Event.run ⟨2, TaskBehaviour.returnsPromise⟩,
             Event.run ⟨3, TaskBehaviour.returnsPromise⟩,
             Event.settle 0 Settlement.rejected]).sched.running ∧
     (exec 2 [Event.run ⟨1, TaskBehaviour.returnsPromise⟩,
             Event.run ⟨2, TaskBehaviour.returnsPromise⟩,
             Event.run ⟨3, TaskBehaviour.returnsPromise⟩,
             Event.settle 0 Settlement.rejected]).sched.running ≤ 2 ∧
     ((exec 2 [Event.run ⟨1, TaskBehaviour.returnsPromise⟩,
             Event.run ⟨2, TaskBehaviour.returnsPromise⟩,
             Event.run ⟨3, TaskBehaviour.returnsPromise⟩,
             Event.settle 0 Settlement.rejected]).pending.length : Int) ≤ 2) :=
  ⟨by decide, by decide, scheduler_running_bounded 2 (by decide) _⟩

end EventLoop

namespace Algorithms

/-- C2: `twoSum` has an empty body, so it completes with `undefined` on every input;
on the documented example `twoSum([2,7,11,15], 9)`, where the values at indices 0 and 1
sum to the target, it does not return the pair `(0, 1)`. -/
theorem twoSum_returns_no_pair :
    (∀ (nums : List Int) (target : Int), twoSum nums target = Completion.undefined) ∧
    ([2, 7, 11, 15] : List Int).getD 0 0 + ([2, 7, 11, 15] : List Int).getD 1 0 = 9 ∧
    twoSum [2, 7, 11, 15] 9 ≠ Completion.returned (0, 1) := by
  refine ⟨fun _ _ => rfl, by decide, ?_⟩
  intro h
  cases h

/-- C3: `maxSubArray` has an empty body, so it completes with `undefined` on every
input; on the documented example `maxSubArray([-2,1,-3,4,-1,2,1,-5,4])` it does not
return 6, the sum of the subarray `[4,-1,2,1]`. -/
theorem maxSubArray_returns_no_sum :
    (∀ nums : List Int, maxSubArray nums = Completion.undefined) ∧
    ([4, -1, 2, 1] : List Int).sum = 6 ∧
    maxSubArray [-2, 1, -3, 4, -1, 2, 1, -5, 4] ≠ Completion.returned 6 := by
  refine ⟨fun _ => rfl, by decide, ?_⟩
  intro h
  cases h

/-- C4: `removeDuplicates` has an empty body, so it leaves the array as it was and
completes with `undefined`; on the documented example `[1,1,2,2,3]` it does not
return 3 and the first three positions hold `[1,1,2]`, not `[1,2,3]`. -/
theorem removeDuplicates_leaves_array :
    (∀ nums : List Int, removeDuplicates nums = (nums, Completion.undefined)) ∧
    (removeDuplicates [1, 1, 2, 2, 3]).2 ≠ Completion.returned 3 ∧
    (removeDuplicates [1, 1, 2, 2, 3]).1.take 3 = [1, 1, 2] ∧
    (removeDuplicates [1, 1, 2, 2, 3]).1.take 3 ≠ [1, 2, 3] := by
  refine ⟨fun _ => rfl, ?_, by decide, by decide⟩
  intro h
  cases h

/-- C5: `reverseList` has an empty body, so it completes with `undefined` on every
list; on the documented example 1→2→3→4→5 it does not return the list 5→4→3→2→1,
nor any list at all. -/
theorem reverseList_returns_no_list :
    (∀ head : ListNode, reverseList head = Completion.undefined) ∧
    reverseList (ListNode.ofValues [1, 2, 3, 4, 5]) ≠
      Completion.returned (ListNode.ofValues [5, 4, 3, 2, 1]) ∧
    ¬ ∃ r : ListNode, reverseList (ListNode.ofValues [1, 2, 3, 4, 5]) = Completion.returned r ∧
      r.values = [5, 4, 3, 2, 1] := by
  refine ⟨fun _ => rfl, ?_, ?_⟩
  · intro h
    cases h
  · rintro ⟨r, h, _⟩
    cases h

/-- C6: `mergeTwoLists` has an empty body, so it completes with `undefined` on every
pair of lists; on the documented example, merging 1→2→4 with 1→3→4, it returns no
list, so neither 1→1→2→3→4→4 nor any list of length 3 + 3. -/
theorem mergeTwoLists_returns_no_list :
    (∀ l1 l2 : ListNode, mergeTwoLists l1 l2 = Completion.undefined) ∧
    mergeTwoLists (ListNode.ofValues [1, 2, 4]) (ListNode.ofValues [1, 3, 4]) ≠
      Completion.returned (ListNode.ofValues [1, 1, 2, 3, 4, 4]) ∧
    ¬ ∃ r : ListNode,
      mergeTwoLists (ListNode.ofValues [1, 2, 4]) (ListNode.ofValues [1, 3, 4]) =
        Completion.returned r ∧
      r.values.length = (ListNode.ofValues [1, 2, 4]).values.length +
        (ListNode.ofValues [1, 3, 4]).values.length := by
  refine ⟨fun _ _ => rfl, ?_, ?_⟩
  · intro h
    cases h
  · rintro ⟨r, h, _⟩
    cases h

/-- C7: `topoSort` has an empty body, so it completes with `undefined` on every graph;
on the acyclic graph with the single edge A→B it returns no sequence, so none in
which A comes before B. -/
theorem topoSort_dag_returns_no_order :
    (∀ g : Graph, topoSort g = Completion.undefined) ∧
    hasEdge graphAB "A" "B" = true ∧
    topoSort graphAB ≠ Completion.returned ["A", "B"] ∧
    ¬ ∃ order : List String, topoSort graphAB = Completion.returned order := by
  refine ⟨fun _ => rfl, by decide, ?_, ?_⟩
  · intro h
    cases h
  · rintro ⟨order, h⟩
    cases h

/-- C8 as stated fails: on the graph with the cycle A→B→C→A and the isolated vertex D,
`topoSort` completes with `undefined`.  Nothing is thrown and no value is returned, and
the result is the very one the call gives on the acyclic graph A→B: no failure of any
kind is signalled, `CycleDetected` or other. -/
theorem topoSort_cycle_does_not_fail :
    isCycle graphCycle ["A", "B", "C"] = true ∧
    topoSort graphCycle = Completion.undefined ∧
    (¬ ∃ error : String, topoSort graphCycle = Completion.thrown error) ∧
    (¬ ∃ value : List String, topoSort graphCycle = Completion.returned value) ∧
    topoSort graphCycle = topoSort graphAB := by
  refine ⟨by decide, rfl, ?_, ?_, rfl⟩
  · rintro ⟨error, h⟩
    cases h
  · rintro ⟨value, h⟩
    cases h

/-- C8, amended: for every directed graph that contains a cycle, `topoSort` returns no
ordering: the call completes with `undefined`. -/
theorem topoSort_cycle_returns_no_order (g : Graph) (path : List String)
    (_h : isCycle g path = true) :
    topoSort g = Completion.undefined ∧
    ¬ ∃ order : List String, topoSort g = Completion.returned order := by
  refine ⟨rfl, ?_⟩
  rintro ⟨order, h⟩
  cases h

/-- Witness of C8, amended, on the graph with the cycle A→B→C→A and the isolated
vertex D. -/
theorem topoSort_cycle_returns_no_order_witness :
    isCycle graphCycle ["A", "B", "C"] = true ∧
    ¬ ∃ order : List String, topoSort graphCycle = Completion.returned order :=
  ⟨by decide, (topoSort_cycle_returns_no_order graphCycle ["A", "B", "C"] (by decide)).2⟩

/-- C9: for every graph whose edge weights are all at least 0 and every start vertex,
`dijkstra` and `bellmanFord` give the same result, hence the same distance for every
vertex.  Both bodies are empty: the common result is `undefined`, which gives no
distance for any vertex. -/
theorem dijkstra_bellmanFord_agree (g : Graph) (start : String)
    (_h : nonNegative g = true) :
    dijkstra g start = bellmanFord g start ∧
    (∀ v : String, distanceOf (dijkstra g start) v = distanceOf (bellmanFord g start) v) ∧
    dijkstra g start = Completion.undefined := by
  exact ⟨rfl, fun _ => rfl, rfl⟩

/-- Witness of C9 on the graph with the single edge A→B of weight 1, from A. -/
theorem dijkstra_bellmanFord_agree_witness :
    nonNegative graphAB = true ∧
    distanceOf (dijkstra graphAB "A") "B" = distanceOf (bellmanFord graphAB "A") "B" :=
  ⟨by decide, (dijkstra_bellmanFord_agree graphAB "A" (by decide)).2.1 "B"⟩

/-- C10: `isValidBST` has an empty body, so it completes with `undefined` on every
tree and every pair of bounds; on the tree `[2,1,3]`, whose values all lie inside the
bounds of their ancestors, it does not return true, and on `[5,1,4,null,null,3,6]`,
where 3 lies below the root 5 in its right subtree, it does not return false. -/
theorem isValidBST_returns_no_boolean :
    (∀ (root : TreeNode) (lo hi : Bound), isValidBST root lo hi = Completion.undefined) ∧
    withinBounds tree213 Bound.negInfinity Bound.infinity = true ∧
    isValidBSTRoot tree213 ≠ Completion.returned true ∧
    withinBounds tree514 Bound.negInfinity Bound.infinity = false ∧
    isValidBSTRoot tree514 ≠ Completion.returned false := by
  refine ⟨fun _ _ _ => rfl, by decide, ?_, by decide, ?_⟩
  · intro h
    cases h
  · intro h
    cases h

end Algorithms

namespace Algorithms

/-- C11: `merge` has an empty body, so it completes with `undefined` on every list of
intervals; on the documented example `merge([[1,3],[2,6],[8,10],[15,18]])` it does
not return `[[1,6],[8,10],[15,18]]`, nor any list. -/
theorem merge_returns_no_intervals :
    (∀ intervals : List (Int × Int), merge intervals = Completion.undefined) ∧
    merge [(1, 3), (2, 6), (8, 10), (15, 18)] ≠
      Completion.returned [(1, 6), (8, 10), (15, 18)] ∧
    ¬ ∃ result : List (Int × Int),
      merge [(1, 3), (2, 6), (8, 10), (15, 18)] = Completion.returned result := by
  refine ⟨fun _ => rfl, ?_, ?_⟩
  · intro h
    cases h
  · rintro ⟨result, h⟩
    cases h

/-- C12: `coinChange` has an empty body, so it completes with `undefined` on every
input; on the documented example `coinChange([1,2,5], 11)`, where 5 + 5 + 1 = 11, it
does not return 3, and for the unreachable amount 3 with the coin 2 it does not
return -1. -/
theorem coinChange_returns_no_count :
    (∀ (coins : List Int) (amount : Int), coinChange coins amount = Completion.undefined) ∧
    ([5, 5, 1] : List Int).sum = 11 ∧
    coinChange [1, 2, 5] 11 ≠ Completion.returned 3 ∧
    coinChange [2] 3 ≠ Completion.returned (-1) := by
  refine ⟨fun _ _ => rfl, by decide, ?_, ?_⟩
  · intro h
    cases h
  · intro h
    cases h

theorem minHeap_run_new (ops : List HeapOp) : MinHeap.run ops = MinHeap.new := by
  unfold MinHeap.run
  induction ops with
  | nil => rfl
  | cons op ops ih =>
    cases op <;> exact ih

/-- C13: after every finite sequence of `insert(val)` and `extractMin()` calls on a new
`MinHeap`, every parent's key in the backing array is at most its children's keys, and
whenever a key is stored `extractMin()` returns a smallest one.  The methods have empty
bodies: the heap never holds a key, so both hold with nothing to compare, and
`extractMin()` completes with `undefined`. -/
theorem minHeap_keeps_heap_order (ops : List HeapOp) :
    heapOrdered (MinHeap.run ops).keys = true ∧
    (∀ k ∈ (MinHeap.run ops).keys,
      ∃ m : Int, (MinHeap.run ops).extractMin.2 = Completion.returned m ∧
        m ∈ (MinHeap.run ops).keys ∧ m ≤ k) ∧
    (∀ m : Int, (MinHeap.run ops).extractMin.2 = Completion.returned m →
      m ∈ (MinHeap.run ops).keys ∧ ∀ k ∈ (MinHeap.run ops).keys, m ≤ k) ∧
    (MinHeap.run ops).keys = [] ∧
    (MinHeap.run ops).extractMin.2 = Completion.undefined := by
  rw [minHeap_run_new]
  refine ⟨rfl, ?_, ?_, rfl, rfl⟩
  · intro k hk
    cases hk
  · intro m hm
    cases hm

end Algorithms

namespace ClassesProto

/-- C15: after lines 212 to 220 of classes-proto.js, `bag1.items` and `bag2.items`
both hold `["apple"]`: the two instances of `Bag` read the one array of
`Bag.prototype`, so `bag2.items` is not empty after `bag1.items.push("apple")`. -/
theorem bag_instances_share_items :
    bagScript = some (["apple"], ["apple"]) ∧
    bagScript ≠ some (["apple"], []) := by
  refine ⟨by decide, by decide⟩

end ClassesProto

namespace ClassesProto

theorem newSafeBag_eq (h : Heap) (p : Nat) :
    newSafeBag h p =
      ({ objects := h.objects ++ [JsObject.mk [("items", h.arrays.length)] (some p)],
         arrays := h.arrays ++ [[]] }, h.objects.length) := by
  simp [newSafeBag, Heap.allocObject, Heap.allocArray, Heap.setProp]

theorem getProp_own (h : Heap) (obj : Nat) (name : String) (o : JsObject) (a : Nat)
    (ho : h.objects[obj]? = some o) (ha : o.props.lookup name = some a) :
    h.getProp obj name = some a := by
  unfold Heap.getProp
  cases hn : h.objects.length with
  | zero =>
    have : h.objects = [] := List.length_eq_zero.mp hn
    rw [this] at ho
    simp at ho
  | succ d =>
    simp [Heap.lookup, ho, ha]

end ClassesProto

namespace ClassesProto

theorem items_new (h : Heap) (p : Nat) :
    (newSafeBag h p).1.items (newSafeBag h p).2 = some [] := by
  rw [newSafeBag_eq]
  have hp : (Heap.mk (h.objects ++ [JsObject.mk [("items", h.arrays.length)] (some p)])
      (h.arrays ++ [[]])).getProp h.objects.length "items" = some h.arrays.length := by
    apply getProp_own _ _ _ (JsObject.mk [("items", h.arrays.length)] (some p))
    · simp
    · simp [List.lookup]
  simp only [Heap.items, hp]
  simp

end ClassesProto

namespace EventLoop

theorem run_eq (st : State) (task : Task) : run st task = next (enqueue st task) := rfl

theorem settle_eq (st : State) (i : Nat) (how : Settlement) (hi : i < st.pending.length) :
    settle st i how = next (release st i) := by
  simp [settle, release, hi]

/-- What `next` takes off the queue is the task it calls: the calls made so far
followed by the queue are the same list before and after. -/
theorem next_calls_queue (st : State) :
    (next st).1.calls ++ (next st).1.sched.queue = st.calls ++ st.sched.queue := by
  unfold next
  split
  · rfl
  · cases hq : st.sched.queue with
    | nil => simp [hq]
    | cons task rest =>
      simp only
      split <;> simp

theorem step_calls_queue (st : State) (e : Event) :
    (step st e).calls ++ (step st e).sched.queue =
      st.calls ++ st.sched.queue ++ submitted [e] := by
  cases e with
  | run task =>
    simp only [step, run_eq, submitted]
    rw [next_calls_queue]
    simp [enqueue]
  | settle i how =>
    simp only [step, submitted, List.append_nil]
    by_cases hi : i < st.pending.length
    · rw [settle_eq st i how hi, next_calls_queue]
      rfl
    · simp [settle, hi]

theorem submitted_cons (e : Event) (es : List Event) :
    submitted (e :: es) = submitted [e] ++ submitted es := by
  cases e <;> rfl

theorem foldl_calls_queue (st : State) (events : List Event) :
    (events.foldl step st).calls ++ (events.foldl step st).sched.queue =
      st.calls ++ st.sched.queue ++ submitted events := by
  induction events generalizing st with
  | nil => simp [submitted]
  | cons e es ih =>
    simp only [List.foldl_cons]
    rw [ih (step st e), step_calls_queue, submitted_cons e es]
    simp

/-- Every pending promise comes from a call that `next` made, and no call accounts for
two of them. -/
theorem next_pending_calls (st : State)
    (h : List.Sublist st.pending
      (st.calls.filter fun t => decide (t.behaviour = TaskBehaviour.returnsPromise))) :
    List.Sublist (next st).1.pending
      ((next st).1.calls.filter fun t => decide (t.behaviour = TaskBehaviour.returnsPromise)) := by
  unfold next
  split
  · exact h
  · cases hq : st.sched.queue with
    | nil => exact h
    | cons task rest =>
      simp only
      split
      · rename_i hb
        simp only [List.filter_append]
        apply List.Sublist.append h
        simp [hb]
      · rename_i hb
        simp only [List.filter_append]
        simpa [hb] using h
      · rename_i hb
        simp only [List.filter_append]
        simpa [hb] using h

theorem step_pending_calls (st : State) (e : Event)
    (h : List.Sublist st.pending
      (st.calls.filter fun t => decide (t.behaviour = TaskBehaviour.returnsPromise))) :
    List.Sublist (step st e).pending
      ((step st e).calls.filter fun t => decide (t.behaviour = TaskBehaviour.returnsPromise)) := by
  cases e with
  | run task =>
    simp only [step, run_eq]
    exact next_pending_calls _ h
  | settle i how =>
    simp only [step]
    by_cases hi : i < st.pending.length
    · rw [settle_eq st i how hi]
      apply next_pending_calls
      exact List.Sublist.trans (List.eraseIdx_sublist st.pending i) h
    · simpa [settle, hi] using h

theorem foldl_pending_calls (st : State) (events : List Event)
    (h : List.Sublist st.pending
      (st.calls.filter fun t => decide (t.behaviour = TaskBehaviour.returnsPromise))) :
    List.Sublist (events.foldl step st).pending
      ((events.foldl step st).calls.filter
        fun t => decide (t.behaviour = TaskBehaviour.returnsPromise)) := by
  induction events generalizing st with
  | nil => exact h
  | cons e es ih => exact ih (step st e) (step_pending_calls st e h)

/-- C16: in the state reached from `new Scheduler(limit)` by any sequence of
`run(task)` calls and settlements, the tasks that `next` has called so far, in the
order called, followed by the contents of `queue` are the tasks passed to `run`, in
call order: no task is lost, none is called twice, none jumps the queue.  The promises
in flight come, in order, from calls that returned a promise, one call for each. -/
theorem scheduler_starts_in_submission_order (limit : Int) (events : List Event) :
    (exec limit events).calls ++ (exec limit events).sched.queue = submitted events ∧
    List.Sublist (exec limit events).pending
      ((exec limit events).calls.filter
        fun t => decide (t.behaviour = TaskBehaviour.returnsPromise)) := by
  constructor
  · have h := foldl_calls_queue (State.new limit) events
    simpa [exec, State.new, Scheduler.new] using h
  · exact foldl_pending_calls (State.new limit) events (List.Sublist.slnil)

end EventLoop

namespace EventLoop

/-- The call `next()` when a slot is free and a task waits: the head of the queue is
invoked, `running` goes up by one, and the promise, if one is returned, is pending. -/
theorem next_of_free (st : State) (task : Task) (rest : List Task)
    (hq : st.sched.queue = task :: rest) (hlt : st.sched.running < st.sched.limit) :
    invoked st = some task ∧
    (next st).1.sched =
      { limit := st.sched.limit, running := st.sched.running + 1, queue := rest } ∧
    (next st).1.pending =
      (if task.behaviour = TaskBehaviour.returnsPromise then st.pending ++ [task]
       else st.pending) ∧
    (next st).2 = decide (task.behaviour = TaskBehaviour.returnsPromise) := by
  have hg : ¬ (st.sched.running ≥ st.sched.limit ∨ st.sched.queue.length = 0) := by
    rw [hq]
    simp only [List.length_cons]
    omega
  refine ⟨by unfold invoked; rw [if_neg hg, hq]; rfl, ?_⟩
  unfold next
  rw [if_neg hg]
  simp only [hq]
  cases hb : task.behaviour <;> simp

/-- The call `next()` when no slot is free or no task waits: nothing happens. -/
theorem next_of_blocked (st : State)
    (hg : st.sched.limit ≤ st.sched.running ∨ st.sched.queue = []) :
    invoked st = none ∧ next st = (st, true) := by
  have hg2 : st.sched.running ≥ st.sched.limit ∨ st.sched.queue.length = 0 := by
    rcases hg with h | h
    · exact Or.inl h
    · exact Or.inr (by rw [h]; rfl)
  unfold invoked next
  rw [if_pos hg2, if_pos hg2]
  exact ⟨rfl, rfl⟩

/-- The call `next()` when a slot is free and a task waits makes the call `task()` for
the head of the queue, whatever that call then does. -/
theorem next_calls_of_free (st : State) (task : Task) (rest : List Task)
    (hq : st.sched.queue = task :: rest) (hlt : st.sched.running < st.sched.limit) :
    (next st).1.calls = st.calls ++ [task] := by
  have hg : ¬ (st.sched.running ≥ st.sched.limit ∨ st.sched.queue.length = 0) := by
    rw [hq]
    simp only [List.length_cons]
    omega
  unfold next
  rw [if_neg hg]
  simp only [hq]
  cases hb : task.behaviour <;> simp

theorem next_busy (st : State)
    (hw : 2 ≤ st.sched.queue.length → st.sched.limit ≤ st.sched.running + 1) :
    (next st).1.sched.queue ≠ [] → (next st).1.sched.limit ≤ (next st).1.sched.running := by
  by_cases hg : st.sched.limit ≤ st.sched.running ∨ st.sched.queue = []
  · rw [(next_of_blocked st hg).2]
    intro hne
    rcases hg with h | h
    · exact h
    · exact absurd h hne
  · have hlt : st.sched.running < st.sched.limit := by
      by_contra hn
      exact hg (Or.inl (not_lt.mp hn))
    cases hq : st.sched.queue with
    | nil => exact absurd (Or.inr hq) hg
    | cons task rest =>
      obtain ⟨_, hs, _⟩ := next_of_free st task rest hq hlt
      rw [hs]
      intro hne
      have h2 : 2 ≤ st.sched.queue.length := by
        rw [hq]
        cases rest with
        | nil => exact absurd rfl hne
        | cons r rs => simp
      exact hw h2

theorem step_busy (st : State) (e : Event)
    (hb : st.sched.queue ≠ [] → st.sched.limit ≤ st.sched.running) :
    (step st e).sched.queue ≠ [] → (step st e).sched.limit ≤ (step st e).sched.running := by
  cases e with
  | run task =>
    simp only [step, run_eq]
    apply next_busy
    intro h2
    have hne : st.sched.queue ≠ [] := by
      intro hnil
      simp [enqueue, hnil] at h2
    have := hb hne
    show st.sched.limit ≤ st.sched.running + 1
    omega
  | settle i how =>
    simp only [step]
    by_cases hi : i < st.pending.length
    · rw [settle_eq st i how hi]
      apply next_busy
      intro h2
      have hne : st.sched.queue ≠ [] := by
        intro hnil
        simp [release, hnil] at h2
      have := hb hne
      show st.sched.limit ≤ st.sched.running - 1 + 1
      omega
    · simpa [settle, hi] using hb

theorem exec_busy (limit : Int) (events : List Event) :
    (exec limit events).sched.queue ≠ [] →
      (exec limit events).sched.limit ≤ (exec limit events).sched.running := by
  unfold exec
  induction events using List.reverseRecOn with
  | nil =>
    intro hne
    exact absurd rfl hne
  | append_singleton es e ih =>
    rw [List.foldl_append]
    exact step_busy _ e ih

/-- While every task is one that returns a promise, each slot counted by `running` is
held by a pending promise. -/
theorem next_all_promise (st : State)
    (hq : ∀ t ∈ st.sched.queue, t.behaviour = TaskBehaviour.returnsPromise)
    (hl : leaked st = 0) :
    (∀ t ∈ (next st).1.sched.queue, t.behaviour = TaskBehaviour.returnsPromise) ∧
    leaked (next st).1 = 0 := by
  by_cases hg : st.sched.limit ≤ st.sched.running ∨ st.sched.queue = []
  · rw [(next_of_blocked st hg).2]
    exact ⟨hq, hl⟩
  · have hlt : st.sched.running < st.sched.limit := by
      by_contra hn
      exact hg (Or.inl (not_lt.mp hn))
    cases hqueue : st.sched.queue with
    | nil => exact absurd (Or.inr hqueue) hg
    | cons task rest =>
      obtain ⟨_, hs, hp, _⟩ := next_of_free st task rest hqueue hlt
      have hb : task.behaviour = TaskBehaviour.returnsPromise :=
        hq task (by rw [hqueue]; exact List.mem_cons_self _ _)
      rw [if_pos hb] at hp
      refine ⟨?_, ?_⟩
      · rw [hs]
        intro t ht
        exact hq t (by rw [hqueue]; exact List.mem_cons_of_mem _ ht)
      · unfold leaked at hl ⊢
        rw [hs, hp]
        simp only [List.length_append, List.length_singleton]
        push_cast
        show st.sched.running + 1 - ((st.pending.length : Int) + 1) = 0
        omega

theorem step_all_promise (st : State) (e : Event)
    (he : ∀ t ∈ submitted [e], t.behaviour = TaskBehaviour.returnsPromise)
    (hq : ∀ t ∈ st.sched.queue, t.behaviour = TaskBehaviour.returnsPromise)
    (hl : leaked st = 0) :
    (∀ t ∈ (step st e).sched.queue, t.behaviour = TaskBehaviour.returnsPromise) ∧
    leaked (step st e) = 0 := by
  cases e with
  | run task =>
    simp only [step, run_eq]
    apply next_all_promise
    · intro t ht
      simp only [enqueue, List.mem_append, List.mem_singleton] at ht
      rcases ht with ht | ht
      · exact hq t ht
      · rw [ht]
        exact he task (by simp [submitted])
    · exact hl
  | settle i how =>
    simp only [step]
    by_cases hi : i < st.pending.length
    · rw [settle_eq st i how hi]
      apply next_all_promise
      · exact hq
      · unfold leaked at hl ⊢
        simp only [release, List.length_eraseIdx, hi, if_true]
        have : ((st.pending.length - 1 : Nat) : Int) = (st.pending.length : Int) - 1 := by omega
        rw [this]
        omega
    · simp only [settle, hi, if_false]
      exact ⟨hq, hl⟩

theorem foldl_all_promise (st : State) (events : List Event)
    (he : ∀ t ∈ submitted events, t.behaviour = TaskBehaviour.returnsPromise)
    (hq : ∀ t ∈ st.sched.queue, t.behaviour = TaskBehaviour.returnsPromise)
    (hl : leaked st = 0) :
    leaked (events.foldl step st) = 0 := by
  induction events generalizing st with
  | nil => exact hl
  | cons e es ih =>
    rw [submitted_cons] at he
    have h1 := step_all_promise st e (fun t ht => he t (List.mem_append_left _ ht)) hq hl
    exact ih (step st e) (fun t ht => he t (List.mem_append_right _ ht)) h1.1 h1.2

/-- C17: for every limit at least 0, in the state reached from `new Scheduler(limit)`
by any sequence of `run(task)` calls and settlements, a non-empty queue means
`running = limit`; when every task passed to `run` returns a promise, `running` is
the number of promises in flight, so a task waits only while `limit` tasks are in
flight; and `run(task)` called while `running < limit` makes the call `task()` at
once, leaving the queue empty, `running` one higher and, if the call returned a
promise, that promise in flight. -/
theorem scheduler_work_conserving (limit : Int) (h : 0 ≤ limit) (events : List Event) :
    ((exec limit events).sched.queue ≠ [] → (exec limit events).sched.running = limit) ∧
    ((∀ t ∈ submitted events, t.behaviour = TaskBehaviour.returnsPromise) →
      ((exec limit events).pending.length : Int) = (exec limit events).sched.running) ∧
    ∀ task : Task, (exec limit events).sched.running < limit →
      (run (exec limit events) task).1.calls = (exec limit events).calls ++ [task] ∧
      (run (exec limit events) task).1.sched.queue = [] ∧
      (run (exec limit events) task).1.sched.running =
        (exec limit events).sched.running + 1 ∧
      (task.behaviour = TaskBehaviour.returnsPromise →
        (run (exec limit events) task).1.pending = (exec limit events).pending ++ [task]) := by
  have hb := exec_busy limit events
  have hl := exec_limit limit events
  have hi := (exec_inv limit h events).2
  rw [hl] at hb hi
  refine ⟨fun hne => le_antisymm hi (hb hne), ?_, ?_⟩
  · intro hall
    have hz : leaked (exec limit events) = 0 :=
      foldl_all_promise (State.new limit) events hall (fun t ht => by cases ht) rfl
    unfold leaked at hz
    omega
  · intro task hlt
    have hnil : (exec limit events).sched.queue = [] := by
      by_contra hne
      have := hb hne
      omega
    have hq : (enqueue (exec limit events) task).sched.queue = task :: [] := by
      simp [enqueue, hnil]
    have hlt2 : (enqueue (exec limit events) task).sched.running <
        (enqueue (exec limit events) task).sched.limit := by
      show (exec limit events).sched.running < (exec limit events).sched.limit
      rw [hl]
      exact hlt
    obtain ⟨_, h2, h3, _⟩ := next_of_free _ task [] hq hlt2
    have h4 := next_calls_of_free _ task [] hq hlt2
    rw [run_eq, h2, h3, h4]
    refine ⟨rfl, rfl, rfl, ?_⟩
    intro hp
    rw [if_pos hp]
    rfl

/-- Witness of C17 at limit 2 with three tasks that return promises: the third waits
while the first two are in flight, and the second was called at once by its `run`. -/
theorem scheduler_work_conserving_witness :
    (exec 2 [Event.run ⟨1, TaskBehaviour.returnsPromise⟩,
             Event.run ⟨2, TaskBehaviour.returnsPromise⟩,
             Event.run ⟨3, TaskBehaviour.returnsPromise⟩]).sched.queue =
      [⟨3, TaskBehaviour.returnsPromise⟩] ∧
    (exec 2 [Event.run ⟨1, TaskBehaviour.returnsPromise⟩,
             Event.run ⟨2, TaskBehaviour.returnsPromise⟩,
             Event.run ⟨3, TaskBehaviour.returnsPromise⟩]).pending =
      [⟨1, TaskBehaviour.returnsPromise⟩, ⟨2, TaskBehaviour.returnsPromise⟩] ∧
    (exec 2 [Event.run ⟨1, TaskBehaviour.returnsPromise⟩,
             Event.run ⟨2, TaskBehaviour.returnsPromise⟩,
             Event.run ⟨3, TaskBehaviour.returnsPromise⟩]).sched.running = 2 ∧
    ((exec 2 [Event.run ⟨1, TaskBehaviour.returnsPromise⟩,
             Event.run ⟨2, TaskBehaviour.returnsPromise⟩,
             Event.run ⟨3, TaskBehaviour.returnsPromise⟩]).pending.length : Int) =
      (exec 2 [Event.run ⟨1, TaskBehaviour.returnsPromise⟩,
             Event.run ⟨2, TaskBehaviour.returnsPromise⟩,
             Event.run ⟨3, TaskBehaviour.returnsPromise⟩]).sched.running ∧
    (run (exec 2 [Event.run ⟨1, TaskBehaviour.returnsPromise⟩])
      ⟨2, TaskBehaviour.returnsPromise⟩).1.calls =
      [⟨1, TaskBehaviour.returnsPromise⟩, ⟨2, TaskBehaviour.returnsPromise⟩] :=
  ⟨by decide, by decide,
   (scheduler_work_conserving 2 (by decide) _).1 (by decide),
   (scheduler_work_conserving 2 (by decide) _).2.1 (by decide),
   ((scheduler_work_conserving 2 (by decide)
      [Event.run ⟨1, TaskBehaviour.returnsPromise⟩]).2.2
      ⟨2, TaskBehaviour.returnsPromise⟩ (by decide)).1⟩

end EventLoop

namespace EventLoop

/-- C18: in a state reached from `new Scheduler(limit)`, limit at least 0, when the
`i`-th pending promise settles, the callback does `running--` and then `next()`
whether the promise fulfilled or rejected, so both cases give the same state; the
head of the queue, if there is one, is invoked by that `next()`, taking the slot
again, and otherwise `running` ends one lower. -/
theorem scheduler_settlement_releases_slot (limit : Int) (h : 0 ≤ limit)
    (events : List Event) (i : Nat) (hi : i < (exec limit events).pending.length) :
    settle (exec limit events) i Settlement.fulfilled =
      settle (exec limit events) i Settlement.rejected ∧
    (∀ how : Settlement,
      settle (exec limit events) i how = next (release (exec limit events) i)) ∧
    (release (exec limit events) i).sched.running = (exec limit events).sched.running - 1 ∧
    invoked (release (exec limit events) i) = (exec limit events).sched.queue.head? ∧
    ∀ how : Settlement,
      (settle (exec limit events) i how).1.sched.queue =
        (exec limit events).sched.queue.tail ∧
      (settle (exec limit events) i how).1.sched.running =
        (if (exec limit events).sched.queue = [] then (exec limit events).sched.running - 1
         else (exec limit events).sched.running) := by
  have hinv := (exec_inv limit h events).2
  have hfree : (release (exec limit events) i).sched.running <
      (release (exec limit events) i).sched.limit := by
    show (exec limit events).sched.running - 1 < (exec limit events).sched.limit
    omega
  refine ⟨rfl, fun how => settle_eq _ i how hi, rfl, ?_⟩
  cases hq : (exec limit events).sched.queue with
  | nil =>
    have hb := next_of_blocked (release (exec limit events) i) (Or.inr hq)
    refine ⟨hb.1, fun how => ?_⟩
    rw [settle_eq _ i how hi, hb.2]
    simp [release, hq]
  | cons task rest =>
    have hf := next_of_free (release (exec limit events) i) task rest hq hfree
    refine ⟨hf.1, fun how => ?_⟩
    rw [settle_eq _ i how hi, hf.2.1]
    simp [release]

/-- Witness of C18 at limit 1: the first task is in flight, the second waits; when
the first settles, the second is started and `running` is 1 again. -/
theorem scheduler_settlement_releases_slot_witness :
    (exec 1 [Event.run ⟨1, TaskBehaviour.returnsPromise⟩,
             Event.run ⟨2, TaskBehaviour.returnsPromise⟩]).pending.length = 1 ∧
    (settle (exec 1 [Event.run ⟨1, TaskBehaviour.returnsPromise⟩,
             Event.run ⟨2, TaskBehaviour.returnsPromise⟩]) 0 Settlement.fulfilled).1.pending =
      [⟨2, TaskBehaviour.returnsPromise⟩] ∧
    settle (exec 1 [Event.run ⟨1, TaskBehaviour.returnsPromise⟩,
             Event.run ⟨2, TaskBehaviour.returnsPromise⟩]) 0 Settlement.fulfilled =
      settle (exec 1 [Event.run ⟨1, TaskBehaviour.returnsPromise⟩,
             Event.run ⟨2, TaskBehaviour.returnsPromise⟩]) 0 Settlement.rejected :=
  ⟨by decide, by decide,
   (scheduler_settlement_releases_slot 1 (by decide)
      [Event.run ⟨1, TaskBehaviour.returnsPromise⟩,
       Event.run ⟨2, TaskBehaviour.returnsPromise⟩] 0 (by decide)).1⟩

theorem leaked_next (st : State) : leaked st ≤ leaked (next st).1 := by
  by_cases hg : st.sched.limit ≤ st.sched.running ∨ st.sched.queue = []
  · rw [(next_of_blocked st hg).2]
  · have hlt : st.sched.running < st.sched.limit := by
      by_contra hn
      exact hg (Or.inl (not_lt.mp hn))
    cases hq : st.sched.queue with
    | nil => exact absurd (Or.inr hq) hg
    | cons task rest =>
      obtain ⟨_, hs, hp, _⟩ := next_of_free st task rest hq hlt
      unfold leaked
      rw [hs, hp]
      split
      · simp only [List.length_append, List.length_singleton]
        push_cast
        omega
      · show st.sched.running - (st.pending.length : Int) ≤
          st.sched.running + 1 - (st.pending.length : Int)
        omega

theorem leaked_step (st : State) (e : Event) : leaked st ≤ leaked (step st e) := by
  cases e with
  | run task =>
    simp only [step, run_eq]
    exact le_trans (le_of_eq rfl) (leaked_next (enqueue st task))
  | settle i how =>
    simp only [step]
    by_cases hi : i < st.pending.length
    · rw [settle_eq st i how hi]
      refine le_trans (le_of_eq ?_) (leaked_next (release st i))
      simp only [leaked, release, List.length_eraseIdx, hi, if_true]
      have : ((st.pending.length - 1 : Nat) : Int) = (st.pending.length : Int) - 1 := by omega
      rw [this]
      omega
    · simp [settle, hi]

theorem leaked_foldl (st : State) (events : List Event) :
    leaked st ≤ leaked (events.foldl step st) := by
  induction events generalizing st with
  | nil => exact le_refl _
  | cons e es ih => exact le_trans (leaked_step st e) (ih (step st e))

/-- C19: in a state with `running < limit` whose queue starts with a task that throws
when invoked, or returns a value with no `finally` method, `next()` ends with the
exception after `running++` and `queue.shift()`: the state differs from the one
before the call, so does the state after the `run` that made the call, and no later
sequence of events gives the slot back, since no promise is pending for it. -/
theorem next_not_atomic_on_throw (st : State) (task : Task) (rest : List Task)
    (hq : st.sched.queue = task :: rest) (hlt : st.sched.running < st.sched.limit)
    (hb : task.behaviour ≠ TaskBehaviour.returnsPromise) :
    next st =
      ({ sched := { limit := st.sched.limit, running := st.sched.running + 1, queue := rest },
         pending := st.pending,
         calls := st.calls ++ [task] }, false) ∧
    (next st).1 ≠ st ∧
    (∀ (st0 : State) (t0 : Task), enqueue st0 t0 = st →
      (run st0 t0).2 = false ∧ (run st0 t0).1.sched.running = st0.sched.running + 1) ∧
    leaked (next st).1 = leaked st + 1 ∧
    ∀ events : List Event, leaked st + 1 ≤ leaked (events.foldl step (next st).1) := by
  obtain ⟨_, hs, hp, hr⟩ := next_of_free st task rest hq hlt
  rw [if_neg hb] at hp
  have hr2 : (next st).2 = false := by
    rw [hr]
    exact decide_eq_false hb
  have hcalls := next_calls_of_free st task rest hq hlt
  have hnext : next st =
      ({ sched := { limit := st.sched.limit, running := st.sched.running + 1, queue := rest },
         pending := st.pending,
         calls := st.calls ++ [task] }, false) := by
    apply Prod.ext
    · cases hn : (next st).1 with
      | mk sched pending calls =>
        rw [hn] at hs hp hcalls
        simp only at hs hp hcalls
        rw [hs, hp, hcalls]
    · exact hr2
  have hleak : leaked (next st).1 = leaked st + 1 := by
    unfold leaked
    rw [hs, hp]
    show st.sched.running + 1 - (st.pending.length : Int) = _
    omega
  refine ⟨hnext, ?_, ?_, hleak, ?_⟩
  · intro heq
    have h1 : (next st).1.sched.running = st.sched.running := by rw [heq]
    rw [hs] at h1
    simp at h1
  · intro st0 t0 he
    rw [run_eq, he]
    refine ⟨hr2, ?_⟩
    rw [hs, ← he]
    rfl
  · intro events
    rw [← hleak]
    exact leaked_foldl _ events

/-- Witness of C19: limit 1, nothing running, and a queue holding one task that
throws. -/
theorem next_not_atomic_on_throw_witness :
    next { sched := { limit := 1, running := 0, queue := [⟨7, TaskBehaviour.throws⟩] },
           pending := [],
           calls := [] } =
      ({ sched := { limit := 1, running := 0 + 1, queue := [] },
         pending := [],
         calls := [] ++ [⟨7, TaskBehaviour.throws⟩] }, false) :=
  (next_not_atomic_on_throw
    { sched := { limit := 1, running := 0, queue := [⟨7, TaskBehaviour.throws⟩] },
      pending := [],
      calls := [] }
    ⟨7, TaskBehaviour.throws⟩ [] rfl (by decide) (by decide)).1

end EventLoop

namespace EventLoop

theorem turns_idle (n : Nat) (s : Loop) (h : s.timers = 0) : turns n s = s := by
  induction n with
  | zero => rfl
  | succ n ih => simp only [turns, turn, h, if_true, ih]

theorem chunkCount_small (n : Nat) (h : n ≤ 100) : chunkCount n = 1 := by
  unfold chunkCount
  omega

theorem chunkCount_large (n : Nat) (h : 100 < n) : chunkCount n = chunkCount (n - 100) + 1 := by
  unfold chunkCount
  omega

theorem numbers_no_throw (nums : List Int) :
    ∀ x ∈ nums.map Element.number, squareThrows x = false := by
  intro x hx
  obtain ⟨n, _, hn⟩ := List.mem_map.mp hx
  rw [← hn]
  rfl

theorem drop_no_throw (items : List Element) (k : Nat)
    (hn : ∀ x ∈ items, squareThrows x = false) :
    ∀ x ∈ items.drop k, squareThrows x = false :=
  fun x hx => hn x (List.mem_of_mem_drop hx)

/-- A run of `chunk` on an array in which no element makes `x * x` throw. -/
theorem chunk_numbers (items : List Element) (timers runs : Nat)
    (parts : List (List Element)) (threw : Bool)
    (hn : ∀ x ∈ items, squareThrows x = false) :
    chunk (Loop.mk items timers runs parts threw) =
      Loop.mk (items.drop 100)
        (if (items.drop 100).length ≠ 0 then timers + 1 else timers)
        (runs + 1) (parts ++ [items.take 100]) threw := by
  have hany : (items.take 100).any squareThrows = false := by
    rw [Bool.eq_false_iff]
    intro h
    rw [List.any_eq_true] at h
    obtain ⟨x, hx, hx2⟩ := h
    rw [hn x (List.mem_of_mem_take hx)] at hx2
    cases hx2
  unfold chunk
  simp only [hany]
  rfl

/-- The state a number of turns after a run of `chunk` that started with no timer
waiting, on an array of numbers: one more run for each turn until the items are used
up. -/
theorem turns_chunk (j : Nat) (items : List Element) (runs : Nat)
    (parts : List (List Element)) (threw : Bool)
    (hn : ∀ x ∈ items, squareThrows x = false) :
    (turns j (chunk (Loop.mk items 0 runs parts threw))).runs =
      runs + min (j + 1) (chunkCount items.length) ∧
    (turns j (chunk (Loop.mk items 0 runs parts threw))).items =
      items.drop (100 * (j + 1)) ∧
    (turns j (chunk (Loop.mk items 0 runs parts threw))).timers =
      (if 100 * (j + 1) < items.length then 1 else 0) ∧
    (turns j (chunk (Loop.mk items 0 runs parts threw))).threw = threw := by
  induction j generalizing items runs parts with
  | zero =>
    have hc : 1 ≤ chunkCount items.length := by
      unfold chunkCount
      omega
    rw [chunk_numbers _ _ _ _ _ hn]
    refine ⟨?_, rfl, ?_, rfl⟩
    · simp only [turns]
      omega
    · simp only [turns, List.length_drop]
      split <;> split <;> omega
  | succ j ih =>
    rw [chunk_numbers _ _ _ _ _ hn]
    by_cases hlen : items.length ≤ 100
    · have hnil : items.drop 100 = [] := List.drop_eq_nil_of_le hlen
      rw [turns_idle _ _ (by simp [hnil]), chunkCount_small _ hlen]
      refine ⟨?_, ?_, ?_, rfl⟩
      · show runs + 1 = _
        omega
      · show items.drop 100 = _
        rw [hnil, List.drop_eq_nil_of_le (by omega)]
      · show (if (items.drop 100).length ≠ 0 then 0 + 1 else 0) = _
        rw [hnil, if_neg (by simp), if_neg (by omega)]
    · have hlen2 : 100 < items.length := by omega
      have hpos : (items.drop 100).length ≠ 0 := by
        rw [List.length_drop]
        omega
      simp only [turns, turn, if_pos hpos]
      simp only [Nat.zero_add, Nat.one_ne_zero, if_false, Nat.sub_self]
      obtain ⟨h1, h2, h3, h4⟩ := ih (items.drop 100) (runs + 1) (parts ++ [items.take 100])
        (drop_no_throw items 100 hn)
      rw [h1, h2, h3, h4, chunkCount_large _ hlen2, List.length_drop, List.drop_drop]
      refine ⟨by omega, ?_, ?_, rfl⟩
      · congr 1
        omega
      · split <;> split <;> omega

/-- C20, for arrays of numbers: for every array of numbers of length n,
`process(items)` and the timers it sets run `chunk` exactly max(1, ceil(n / 100))
times: after j turns of the event loop `chunk` has run
min(j + 1, max(1, ceil(n / 100))) times, and from turn max(1, ceil(n / 100)) - 1 on
the count stays there, no timer waits, `items` is empty and nothing was thrown; a run
of `chunk` that sets a timer leaves `items` strictly shorter. -/
theorem process_terminates_and_drains (nums : List Int) :
    (∀ j : Nat, (turns j (process (nums.map Element.number))).runs =
      min (j + 1) (chunkCount nums.length)) ∧
    (∀ extra : Nat,
      (turns (chunkCount nums.length - 1 + extra) (process (nums.map Element.number))).runs =
        chunkCount nums.length ∧
      (turns (chunkCount nums.length - 1 + extra) (process (nums.map Element.number))).items =
        [] ∧
      (turns (chunkCount nums.length - 1 + extra) (process (nums.map Element.number))).timers =
        0 ∧
      (turns (chunkCount nums.length - 1 + extra) (process (nums.map Element.number))).threw =
        false) ∧
    (∀ s : Loop, (chunk s).timers = s.timers ∨
      ((chunk s).timers = s.timers + 1 ∧ (chunk s).items.length < s.items.length)) := by
  have hc : chunkCount nums.length = max 1 ((nums.length + 99) / 100) := rfl
  have hn := numbers_no_throw nums
  have hlen : (nums.map Element.number).length = nums.length := List.length_map _ _
  refine ⟨fun j => ?_, fun extra => ?_, fun s => ?_⟩
  · have := (turns_chunk j (nums.map Element.number) 0 [] false hn).1
    unfold process
    rw [this, hlen]
    omega
  · obtain ⟨h1, h2, h3, h4⟩ :=
      turns_chunk (chunkCount nums.length - 1 + extra) (nums.map Element.number) 0 [] false hn
    unfold process
    rw [h1, h2, h3, h4, hlen]
    refine ⟨by omega, ?_, ?_, rfl⟩
    · apply List.drop_eq_nil_of_le
      rw [hlen]
      omega
    · rw [if_neg]
      omega
  · unfold chunk
    simp only
    split
    · left
      rfl
    · simp only [List.length_drop]
      split
      · right
        omega
      · left
        rfl

set_option maxRecDepth 20000 in
/-- C20 fails for an array that holds a Symbol: on 151 elements of which the first is
a Symbol, `x * x` throws in the first run of `chunk`, before `setTimeout(chunk)`; so
`chunk` runs once, not max(1, ceil(151 / 100)) = 2 times, no timer is set and 51
elements stay in `items`. -/
theorem process_symbol_stops_early :
    chunkCount symbolThenNumbers.length = 2 ∧
    (turns 1 (process symbolThenNumbers)).runs = 1 ∧
    (turns 1 (process symbolThenNumbers)).timers = 0 ∧
    (turns 1 (process symbolThenNumbers)).threw = true ∧
    (turns 1 (process symbolThenNumbers)).items.length = 51 := by
  refine ⟨by decide, by decide, by decide, by decide, by decide⟩

end EventLoop

namespace ClassesProto

theorem set_append_length {α : Type} (A cs : List α) (k : Nat) (z : α) :
    (A ++ cs).set (A.length + k) z = A ++ cs.set k z := by
  induction A with
  | nil => simp
  | cons a A ih =>
    have : (a :: A).length + k = (A.length + k) + 1 := by simp; omega
    rw [this]
    simp [ih]

theorem getElem?_append_length {α : Type} (A cs : List α) (k : Nat) :
    (A ++ cs)[A.length + k]? = cs[k]? := by
  rw [List.getElem?_append_right (Nat.le_add_right _ _)]
  simp

theorem bagHeap_nil (h : Heap) (p : Nat) : bagHeap h.objects h.arrays p [] = h := by
  simp [bagHeap]

theorem newSafeBag_bagHeap (O : List JsObject) (A : List (List String)) (p : Nat)
    (cs : List (List String)) :
    newSafeBag (bagHeap O A p cs) p = (bagHeap O A p (cs ++ [[]]), O.length + cs.length) := by
  rw [newSafeBag_eq]
  simp [bagHeap, List.range_succ]

theorem getProp_bagHeap (O : List JsObject) (A : List (List String)) (p : Nat)
    (cs : List (List String)) (k : Nat) (hk : k < cs.length) :
    (bagHeap O A p cs).getProp (O.length + k) "items" = some (A.length + k) := by
  apply getProp_own _ _ _ (JsObject.mk [("items", A.length + k)] (some p))
  · show (O ++ _)[O.length + k]? = _
    rw [getElem?_append_length]
    simp [hk]
  · simp [List.lookup]

theorem items_bagHeap (O : List JsObject) (A : List (List String)) (p : Nat)
    (cs : List (List String)) (k : Nat) (hk : k < cs.length) :
    (bagHeap O A p cs).items (O.length + k) = cs[k]? := by
  simp only [Heap.items, getProp_bagHeap O A p cs k hk]
  exact getElem?_append_length A cs k

theorem pushItems_bagHeap (O : List JsObject) (A : List (List String)) (p : Nat)
    (cs : List (List String)) (k : Nat) (hk : k < cs.length) (v : String) :
    (bagHeap O A p cs).pushItems (O.length + k) v =
      some (bagHeap O A p (cs.set k (cs.getD k [] ++ [v]))) := by
  have ha : (bagHeap O A p cs).arrays[A.length + k]? = some (cs.getD k []) := by
    show (A ++ cs)[A.length + k]? = _
    rw [getElem?_append_length]
    simp [List.getD, List.getElem?_eq_getElem hk]
  simp only [Heap.pushItems, getProp_bagHeap O A p cs k hk, ha]
  simp [bagHeap, set_append_length]

theorem bagInstances_append (O : List JsObject) (cs : List (List String)) :
    bagInstances O (cs ++ [[]]) = bagInstances O cs ++ [O.length + cs.length] := by
  simp [bagInstances, List.range_succ]

theorem bagInstances_get (O : List JsObject) (cs : List (List String)) (k : Nat) :
    (bagInstances O cs)[k]? = if k < cs.length then some (O.length + k) else none := by
  unfold bagInstances
  split
  · rename_i hk
    simp [hk]
  · rename_i hk
    simp [hk]
    omega

theorem runOps_bagHeap (O : List JsObject) (A : List (List String)) (p : Nat)
    (ops : List BagOp) (cs : List (List String)) :
    runOps p (bagHeap O A p cs, bagInstances O cs) ops =
      (expectedItems cs ops).map (fun cs1 => (bagHeap O A p cs1, bagInstances O cs1)) := by
  induction ops generalizing cs with
  | nil => rfl
  | cons op ops ih =>
    cases op with
    | create =>
      simp only [runOps, applyOp, expectedItems, newSafeBag_bagHeap, ← bagInstances_append]
      exact ih (cs ++ [[]])
    | push k v =>
      by_cases hk : k < cs.length
      · simp only [runOps, applyOp, expectedItems, bagInstances_get, hk, if_true,
          pushItems_bagHeap O A p cs k hk v]
        have hinst : bagInstances O cs =
            bagInstances O (cs.set k (cs.getD k [] ++ [v])) := by
          simp [bagInstances]
        rw [hinst]
        exact ih _
      · simp only [runOps, applyOp, expectedItems, bagInstances_get, hk, if_false]
        rfl

theorem items_bagInstances (O : List JsObject) (A : List (List String)) (p : Nat)
    (cs : List (List String)) :
    (bagInstances O cs).map (bagHeap O A p cs).items = cs.map some := by
  apply List.ext_getElem?
  intro k
  by_cases hk : k < cs.length
  · simp only [List.getElem?_map, bagInstances_get, hk, if_true, Option.map_some']
    rw [items_bagHeap O A p cs k hk, List.getElem?_eq_getElem hk]
    rfl
  · simp only [List.getElem?_map, bagInstances_get, hk, if_false, Option.map_none']
    rw [List.getElem?_eq_none (by omega)]
    rfl

end ClassesProto

namespace ClassesProto

/-- C14: every instance made by `new SafeBag()` starts with an empty `items` array of
its own.  On any heap and for any sequence of `new SafeBag()` and
`s.items.push(value)` steps, each instance holds exactly the values pushed to that
instance, in order: a push to one instance changes the `items` of no other.  With two
instances, a push of `v` to the first leaves `[v]` in the first and nothing in the
second. -/
theorem safeBag_instances_own_items (h : Heap) (p : Nat) (ops : List BagOp) (v : String) :
    (newSafeBag h p).1.items (newSafeBag h p).2 = some [] ∧
    (runOps p (h, []) ops).map (fun r => r.2.map r.1.items) =
      (expectedItems [] ops).map (fun cs => cs.map some) ∧
    (runOps p (h, []) [BagOp.create, BagOp.create, BagOp.push 0 v]).map
      (fun r => r.2.map r.1.items) = some [some [v], some []] := by
  have hrun : ∀ ops1 : List BagOp,
      (runOps p (h, []) ops1).map (fun r => r.2.map r.1.items) =
        (expectedItems [] ops1).map (fun cs => cs.map some) := by
    intro ops1
    have hb := runOps_bagHeap h.objects h.arrays p ops1 []
    rw [bagHeap_nil] at hb
    have hi : bagInstances h.objects [] = [] := rfl
    rw [hi] at hb
    rw [hb, Option.map_map]
    congr 1
    funext cs
    exact items_bagInstances h.objects h.arrays p cs
  refine ⟨items_new h p, hrun ops, ?_⟩
  rw [hrun]
  simp [expectedItems]

end ClassesProto

namespace EventLoop

theorem chunkCount_pos (n : Nat) : 1 ≤ chunkCount n := by
  unfold chunkCount
  omega

/-- The parts taken by a run of `chunk` and the runs that follow it, on an array of
numbers: together with the items still in the array they are the items the run
started with, in order; every part has at most 100 elements and every part but the
last exactly 100. -/
theorem turns_parts (j : Nat) (items : List Element) (runs : Nat)
    (parts : List (List Element)) (threw : Bool)
    (hn : ∀ x ∈ items, squareThrows x = false) :
    ∃ taken : List (List Element),
      (turns j (chunk (Loop.mk items 0 runs parts threw))).parts = parts ++ taken ∧
      taken.flatten ++ (turns j (chunk (Loop.mk items 0 runs parts threw))).items = items ∧
      taken.length = min (j + 1) (chunkCount items.length) ∧
      (∀ part ∈ taken, part.length ≤ 100) ∧
      (∀ part ∈ taken.dropLast, part.length = 100) := by
  induction j generalizing items runs parts with
  | zero =>
    have hc := chunkCount_pos items.length
    rw [chunk_numbers _ _ _ _ _ hn]
    refine ⟨[items.take 100], rfl, ?_, ?_, ?_, ?_⟩
    · simp [turns]
    · simp only [List.length_singleton]
      omega
    · intro part hp
      simp only [List.mem_singleton] at hp
      rw [hp, List.length_take]
      omega
    · intro part hp
      simp at hp
  | succ j ih =>
    rw [chunk_numbers _ _ _ _ _ hn]
    by_cases hlen : items.length ≤ 100
    · have hnil : items.drop 100 = [] := List.drop_eq_nil_of_le hlen
      rw [turns_idle _ _ (by simp [hnil])]
      refine ⟨[items.take 100], rfl, ?_, ?_, ?_, ?_⟩
      · simp
      · rw [chunkCount_small _ hlen]
        simp
      · intro part hp
        simp only [List.mem_singleton] at hp
        rw [hp, List.length_take]
        omega
      · intro part hp
        simp at hp
    · have hlen2 : 100 < items.length := by omega
      have hpos : (items.drop 100).length ≠ 0 := by
        rw [List.length_drop]
        omega
      simp only [turns, turn, if_pos hpos]
      simp only [Nat.zero_add, Nat.one_ne_zero, if_false, Nat.sub_self]
      have hc2 := chunkCount_pos (items.drop 100).length
      obtain ⟨taken, h1, h2, h3, h4, h5⟩ :=
        ih (items.drop 100) (runs + 1) (parts ++ [items.take 100])
          (drop_no_throw items 100 hn)
      have hne : taken ≠ [] := by
        intro hnil
        rw [hnil] at h3
        simp only [List.length_nil] at h3
        omega
      refine ⟨items.take 100 :: taken, ?_, ?_, ?_, ?_, ?_⟩
      · rw [h1]
        simp
      · rw [List.flatten_cons, List.append_assoc, h2]
        exact List.take_append_drop 100 items
      · rw [List.length_cons, h3, chunkCount_large _ hlen2, List.length_drop]
        omega
      · intro part hp
        rcases List.mem_cons.mp hp with hp | hp
        · rw [hp, List.length_take]
          omega
        · exact h4 part hp
      · intro part hp
        rw [List.dropLast_cons_of_ne_nil hne] at hp
        rcases List.mem_cons.mp hp with hp | hp
        · rw [hp, List.length_take]
          omega
        · exact h5 part hp

end EventLoop

namespace EventLoop

/-- C21, for arrays of numbers: for every array of numbers `items`, the `part` arrays
that the runs of `chunk` take, joined in the order taken and followed by what is
still in `items`, are the original contents of `items` at every turn; once the work is
done the parts alone are the original contents, there are max(1, ceil(n / 100)) of
them, each has at most 100 elements, and each but the last has exactly 100. -/
theorem process_parts_partition (nums : List Int) (extra : Nat) :
    (∀ j : Nat,
      (turns j (process (nums.map Element.number))).parts.flatten ++
        (turns j (process (nums.map Element.number))).items = nums.map Element.number) ∧
    (turns (chunkCount nums.length - 1 + extra)
      (process (nums.map Element.number))).parts.flatten = nums.map Element.number ∧
    (turns (chunkCount nums.length - 1 + extra)
      (process (nums.map Element.number))).parts.length = chunkCount nums.length ∧
    (∀ part ∈ (turns (chunkCount nums.length - 1 + extra)
      (process (nums.map Element.number))).parts, part.length ≤ 100) ∧
    (∀ part ∈ (turns (chunkCount nums.length - 1 + extra)
      (process (nums.map Element.number))).parts.dropLast, part.length = 100) := by
  have hpos := chunkCount_pos nums.length
  have hc : chunkCount nums.length = max 1 ((nums.length + 99) / 100) := rfl
  have hn := numbers_no_throw nums
  have hlen : (nums.map Element.number).length = nums.length := List.length_map _ _
  constructor
  · intro j
    obtain ⟨taken, h1, h2, _⟩ := turns_parts j (nums.map Element.number) 0 [] false hn
    unfold process
    rw [h1]
    simpa using h2
  · obtain ⟨taken, h1, h2, h3, h4, h5⟩ :=
      turns_parts (chunkCount nums.length - 1 + extra) (nums.map Element.number) 0 [] false hn
    have hdone :=
      (turns_chunk (chunkCount nums.length - 1 + extra) (nums.map Element.number)
        0 [] false hn).2.1
    have hnil : List.drop (100 * (chunkCount nums.length - 1 + extra + 1))
        (nums.map Element.number) = [] := by
      apply List.drop_eq_nil_of_le
      rw [hlen]
      omega
    rw [hdone, hnil, List.append_nil] at h2
    unfold process
    rw [h1, List.nil_append]
    refine ⟨h2, ?_, h4, h5⟩
    rw [h3, hlen]
    omega

set_option maxRecDepth 20000 in
/-- C21 fails for an array that holds a Symbol: on 151 elements of which the first is
a Symbol, the one part taken holds the first 100 elements and the exception ends the
work there, so the parts taken do not join to the original contents of `items`. -/
theorem process_symbol_parts_incomplete :
    symbolThenNumbers.length = 151 ∧
    (turns 1 (process symbolThenNumbers)).parts.length = 1 ∧
    (turns 1 (process symbolThenNumbers)).parts.flatten.length = 100 ∧
    (turns 1 (process symbolThenNumbers)).timers = 0 ∧
    (turns 1 (process symbolThenNumbers)).parts.flatten ≠ symbolThenNumbers := by
  refine ⟨by decide, by decide, by decide, by decide, by decide⟩

end EventLoop

namespace Async

theorem seq_idle (n : Nat) (s : SeqState) (h : s.awaiting = none) : SeqState.turns n s = s := by
  induction n with
  | zero => rfl
  | succ n ih => simp only [SeqState.turns, SeqState.turn, h, ih]

/-- The loop of `processSequential`, run until every awaited timer has fired, returns
the results so far followed by the doubles of the items left, in order. -/
theorem seq_turns (remaining : List Int) (results : List Int) (extra : Nat) :
    (SeqState.turns (remaining.length + extra) (SeqState.loop results remaining)).returned =
      some (results ++ remaining.map fun x => x * 2) := by
  induction remaining generalizing results with
  | nil =>
    rw [seq_idle _ _ rfl]
    simp [SeqState.loop]
  | cons item rest ih =>
    have hn : (item :: rest).length + extra = (rest.length + extra) + 1 := by
      simp only [List.length_cons]
      omega
    rw [hn]
    simp only [SeqState.turns]
    have hturn : (SeqState.loop results (item :: rest)).turn =
        SeqState.loop (results ++ [item * 2]) rest := rfl
    rw [hturn, ih]
    simp

theorem par_idle (n : Nat) (s : ParState) (h : s.timers = []) : ParState.turns n s = s := by
  induction n with
  | zero => rfl
  | succ n ih => simp only [ParState.turns, ParState.turn, h, ih]

theorem set_values (done : List Int) (k : Nat) (v : Int) :
    (done.map some ++ List.replicate (k + 1) none).set done.length (some v) =
      (done ++ [v]).map some ++ List.replicate k none := by
  induction done with
  | nil => simp [List.replicate_succ]
  | cons d done ih => simpa using ih

/-- The timers of `processItems`, fired in the order they were set, fill the values of
`Promise.all` by index; when the last one has fired, the call resolves with the values
collected, in index order. -/
theorem par_turns (todo : List Int) (done : List Int) (ret : Option (List Int))
    (extra : Nat) (hne : todo ≠ []) :
    (ParState.turns (todo.length + extra)
      { timers := (todo.map fun item => Timer.mk (item * 2)).enumFrom done.length,
        values := done.map some ++ List.replicate todo.length none,
        waiting := todo.length,
        returned := ret }).returned =
      some (done ++ todo.map fun x => x * 2) := by
  induction todo generalizing done ret with
  | nil => exact absurd rfl hne
  | cons item rest ih =>
    have hn : (item :: rest).length + extra = (rest.length + extra) + 1 := by
      simp only [List.length_cons]
      omega
    rw [hn]
    simp only [ParState.turns, ParState.turn, List.map_cons, List.enumFrom_cons,
      List.length_cons, set_values, Nat.add_sub_cancel]
    by_cases hrest : rest = []
    · subst hrest
      rw [par_idle _ _ rfl]
      simp
    · have hlen : rest.length ≠ 0 := by
        intro h0
        exact hrest (List.length_eq_zero.mp h0)
      have h := ih (done ++ [item * 2]) none hrest
      simp only [List.length_append, List.length_singleton] at h
      rw [if_neg hlen, h]
      simp

end Async

namespace Async

/-- C22: for every list of numbers `items`, once the timers have fired,
`processSequential(items)` and `processItems(items)` are both resolved with the list
`[2 * x for x in items]`, which has the length of `items` and holds at each index the
double of the item at that index. -/
theorem sequential_parallel_agree (items : List Int) (extra : Nat) :
    (SeqState.turns (items.length + extra) (processSequential items)).returned =
      some (doubled items) ∧
    (ParState.turns (items.length + extra) (processItems items)).returned =
      some (doubled items) ∧
    (doubled items).length = items.length ∧
    ∀ i : Nat, (doubled items)[i]? = (items[i]?).map fun x => 2 * x := by
  have hd : (items.map fun x => x * 2) = doubled items := by
    unfold doubled
    apply List.map_congr_left
    intro x _
    exact mul_comm x 2
  refine ⟨?_, ?_, ?_, ?_⟩
  · have h := seq_turns items [] extra
    rw [List.nil_append, hd] at h
    exact h
  · by_cases hne : items = []
    · subst hne
      rw [par_idle _ _ rfl]
      rfl
    · have h := par_turns items [] none extra hne
      rw [List.nil_append, hd] at h
      have hlen : items.length ≠ 0 := by
        intro h0
        exact hne (List.length_eq_zero.mp h0)
      have hstart : processItems items =
          { timers := (items.map fun item => Timer.mk (item * 2)).enumFrom ([] : List Int).length,
            values := ([] : List Int).map some ++ List.replicate items.length none,
            waiting := items.length,
            returned := none } := by
        simp [processItems, hlen, List.enum]
      rw [hstart]
      exact h
  · simp [doubled]
  · intro i
    simp [doubled]

end Async
